import Mathlib

/-!
Verification of the `shader_graph` crate (`src/crates/shader_graph/src/graph.rs`)
of the dyadikos repository.

The crate is a thin wrapper around `petgraph::Graph<Node, u32>`.  The shallow
embedding below represents the petgraph arena directly:

* `Graph.nodes` is the node arena; a `NodeIndex<u32>` handle is the position
  of the node in this list, so `add_node` appends and returns the old length.
* `Graph.edges` is the edge arena in insertion order, each edge carrying
  `source`, `target` and its `u32` weight (the argument slot).
* petgraph's adjacency lists are singly linked lists into which `add_edge`
  inserts at the head, so iterating the edges of a node
  (`edges_directed`, `neighbors`) visits them in reverse insertion order;
  the embedding realises that as `filter` followed by `reverse`.
* petgraph's `Graph::add_edge` panics when an endpoint index is out of
  bounds, so the embedded `add_edge` returns an `Option`.
* indexing (`graph[h]`, via `Graph::index`) panics on a dangling handle and
  is embedded as `List.getElem?`.
* `u32` scalars are embedded as `Nat` (the graph never performs arithmetic
  on them, so no wrap-around is observable), and the `f64` payloads of
  `TypedValue` are embedded as their bit patterns (`Nat`), since no claim
  performs floating point arithmetic on them.
* Rust's `Vec::sort_by_key` is a stable sort by the key; it is embedded as
  `List.insertionSort` by edge weight, which is stable in the same sense.
* `algo::is_cyclic_directed` (an external petgraph algorithm whose contract
  is "returns true iff the graph contains a directed cycle") is embedded as
  an executable bounded-reachability check `has_cycle`, and the development
  proves that check equivalent to the existence of a nonempty directed
  cycle, which is exactly the contract the crate relies on.
-/

namespace ShaderGraph

/-- Texture dimensionality, from `enum Dim` in graph.rs. -/
inductive Dim where
  | Dim1D
  | Dim2D
  | Dim3D
  | DimCube
  | DimRect
  | DimBuffer
  | DimSubpassData
deriving DecidableEq, Repr

/-- Literal constant payload, from `enum TypedValue` in graph.rs.
The `f64` components are embedded as their bit patterns (`Nat`). -/
inductive TypedValue where
  | Float (bits : Nat)
  | Vec2 (x y : Nat)
  | Vec3 (x y z : Nat)
  | Vec4 (x y z w : Nat)
deriving DecidableEq, Repr

/-- Recursive value-type descriptor, from `enum TypeName` in graph.rs. -/
inductive TypeName where
  | Bool
  | Int (signed : Bool)
  | Float (doublePrecision : Bool)
  | Vec (components : Nat)
  | Mat (dimension : Nat) (element : TypeName)
  | Sampler (sampled : TypeName) (dim : Dim)
deriving DecidableEq, Repr

/-- Shader graph vertex kinds, from `enum Node` in graph.rs. -/
inductive Node where
  | Input (binding : Nat) (ty : TypeName)
  | Uniform (binding : Nat) (ty : TypeName)
  | Output (binding : Nat) (ty : TypeName)
  | Constant (value : TypedValue)
  | Construct (ty : TypeName)
  | Extract (component : Nat)
  | Normalize
  | Add
  | Subtract
  | Multiply
  | Divide
  | Modulus
  | Clamp
  | Dot
  | Cross
  | Floor
  | Ceil
  | Round
  | Sin
  | Cos
  | Tan
  | Pow
  | Min
  | Max
  | Length
  | Distance
  | Reflect
  | Refract
  | Mix
  | Sample
deriving DecidableEq, Repr

/-- One directed edge of the petgraph arena: source and target node handles
and the `u32` weight (the consumer's argument slot). -/
structure Edge where
  source : Nat
  target : Nat
  weight : Nat
deriving DecidableEq, Repr

/-- The shader graph: the petgraph node arena together with the edge arena
in insertion order (from `struct Graph { graph: PetGraph<Node, u32> }`). -/
structure Graph where
  nodes : List Node
  edges : List Edge
deriving DecidableEq, Repr

namespace Graph

/-- `Default::default()`: the empty graph. -/
def default : Graph := ⟨[], []⟩

/-- `Graph::add_node`: append the node to the arena and return its handle
(petgraph hands out the previous node count as the fresh `NodeIndex`). -/
def add_node (g : Graph) (node : Node) : Graph × Nat :=
  ({ g with nodes := g.nodes ++ [node] }, g.nodes.length)

/-- `Graph::add_edge`: append a directed edge.  petgraph's `add_edge`
panics when either endpoint index is out of bounds, hence the `Option`;
nothing else about the edge is validated. -/
def add_edge (g : Graph) (a b : Nat) (index : Nat) : Option Graph :=
  if a < g.nodes.length ∧ b < g.nodes.length then
    some { g with edges := g.edges ++ [⟨a, b, index⟩] }
  else
    none

/-- `graph[h]` (the `Index` impl): node lookup by handle; petgraph panics
on a dangling handle, hence the `Option`. -/
def index (g : Graph) (v : Nat) : Option Node :=
  g.nodes[v]?

/-- Whether node `v` has at least one outgoing edge. -/
def has_outgoing (g : Graph) (v : Nat) : Bool :=
  g.edges.any fun e => e.source == v

/-- Whether the node stored at handle `v` has variant `Output`. -/
def is_output_node (g : Graph) (v : Nat) : Bool :=
  match g.nodes[v]? with
  | some (Node.Output _ _) => true
  | _ => false

/-- `Graph::outputs`: `externals(Outgoing)` yields the handles without
outgoing edges in ascending index order, filtered to `Output` variants. -/
def outputs (g : Graph) : List Nat :=
  (List.range g.nodes.length).filter fun v => !g.has_outgoing v && g.is_output_node v

/-- `edges_directed(v, Incoming)`: the edges whose target is `v`.
petgraph stores adjacency as head-inserted linked lists, so the iterator
yields them in reverse insertion order. -/
def incoming_edges (g : Graph) (v : Nat) : List Edge :=
  (g.edges.filter fun e => e.target == v).reverse

end Graph

/-- The comparison `sort_by_key(|e| e.weight())` sorts by: weight order. -/
def edgeLE (e f : Edge) : Prop := e.weight ≤ f.weight

instance : DecidableRel edgeLE := fun e f => Nat.decLe e.weight f.weight

instance : IsTotal Edge edgeLE := ⟨fun e f => Nat.le_total e.weight f.weight⟩

instance : IsTrans Edge edgeLE := ⟨fun _ _ _ h h' => Nat.le_trans h h'⟩

/-- Strict weight order, used to state that distinct weights determine the
sorted order uniquely. -/
def edgeLT (e f : Edge) : Prop := e.weight < f.weight

instance : IsAntisymm Edge edgeLT :=
  ⟨fun _ _ h h' => absurd (Nat.lt_trans h h') (Nat.lt_irrefl _)⟩

namespace Graph

/-- The collected incoming edges of `v` after `vec.sort_by_key(|e| e.weight())`
(a stable sort, embedded as the stable `insertionSort`). -/
def sorted_incoming (g : Graph) (v : Nat) : List Edge :=
  (g.incoming_edges v).insertionSort edgeLE

/-- `Graph::arguments`: sources of the incoming edges of `v`, sorted
ascending by weight. -/
def arguments (g : Graph) (v : Nat) : List Nat :=
  (g.sorted_incoming v).map Edge.source

/-- Direct successors of `u` along the edge relation, as a finite set. -/
def succs (g : Graph) (u : Nat) : Finset Nat :=
  ((g.edges.filter fun e => e.source == u).map Edge.target).toFinset

/-- One expansion step of forward reachability. -/
def step_set (g : Graph) (S : Finset Nat) : Finset Nat :=
  S ∪ S.biUnion g.succs

/-- All nodes reachable from `v` in at least one step: expanding node-count
many times saturates, see `mem_reach_set_iff`. -/
def reach_set (g : Graph) (v : Nat) : Finset Nat :=
  (g.step_set)^[g.nodes.length] (g.succs v)

/-- `Graph::has_cycle`, i.e. petgraph's `algo::is_cyclic_directed`, whose
contract is "returns true iff the graph contains a directed cycle";
embedded as an executable bounded-reachability check, proved below to
decide exactly the existence of a nonempty directed cycle. -/
def has_cycle (g : Graph) : Bool :=
  (List.range g.nodes.length).any fun v => decide (v ∈ g.reach_set v)

/-- The edge relation: some edge runs from `u` to `v`. -/
def HasEdge (g : Graph) (u v : Nat) : Prop :=
  ∃ w, (⟨u, v, w⟩ : Edge) ∈ g.edges

/-- `ReachN g u v k`: there is a directed path of length `k ≥ 1` from `u`
to `v` along the edge relation. -/
inductive ReachN (g : Graph) : Nat → Nat → Nat → Prop where
  | single {u v : Nat} : g.HasEdge u v → g.ReachN u v 1
  | cons {u w v k : Nat} : g.HasEdge u w → g.ReachN w v k → g.ReachN u v (k + 1)

/-- The edge relation contains a nonempty directed cycle. -/
def HasDirectedCycle (g : Graph) : Prop :=
  ∃ v k, g.ReachN v v k

/-- Every edge endpoint is a live node handle.  petgraph maintains this
invariant (its `add_edge` rejects out-of-bounds endpoints). -/
def WF (g : Graph) : Prop :=
  ∀ e ∈ g.edges, e.source < g.nodes.length ∧ e.target < g.nodes.length

instance (g : Graph) : Decidable g.WF := by
  unfold Graph.WF
  infer_instance

end Graph

/-- The structured serialization payload of a graph: petgraph's serde
format persists the node arena and the edge arena (endpoints and weights). -/
structure SerializedGraph where
  nodes : List Node
  edges : List Edge
deriving DecidableEq, Repr

/-- `serialize(g)`: persist the node and edge arenas. -/
def Graph.serialize (g : Graph) : SerializedGraph :=
  ⟨g.nodes, g.edges⟩

/-- `deserialize`: rebuild the graph; petgraph's deserializer rejects the
payload when an edge endpoint is not a valid node index. -/
def deserialize (s : SerializedGraph) : Option Graph :=
  if s.edges.all (fun e =>
      decide (e.source < s.nodes.length) && decide (e.target < s.nodes.length)) then
    some ⟨s.nodes, s.edges⟩
  else
    none

/-- A single mutation of the builder API. -/
inductive Op where
  | addNode (node : Node)
  | addEdge (a b w : Nat)
deriving DecidableEq, Repr

/-- Whether the operation is an `add_node` call. -/
def Op.isAddNode : Op → Bool
  | .addNode _ => true
  | .addEdge _ _ _ => false

/-- Run one builder operation (failure = petgraph panic). -/
def applyOp (g : Graph) : Op → Option Graph
  | .addNode n => some (g.add_node n).1
  | .addEdge a b w => g.add_edge a b w

/-- Run a sequence of builder operations. -/
def applyOps (g : Graph) : List Op → Option Graph
  | [] => some g
  | op :: ops =>
    match applyOp g op with
    | some g' => applyOps g' ops
    | none => none

/-! ### Concrete fixtures -/

/-- Spec end-to-end fixture: `A = Input(0, Vec 3)` at handle 0,
`B = Input(1, Vec 3)` at 1, `C = Add` at 2, `D = Output(0, Vec 3)` at 3,
edges `(A→C, 0)`, `(B→C, 1)`, `(C→D, 0)`. -/
def gE2E : Graph :=
  ⟨[Node.Input 0 (TypeName.Vec 3), Node.Input 1 (TypeName.Vec 3), Node.Add,
    Node.Output 0 (TypeName.Vec 3)],
   [⟨0, 2, 0⟩, ⟨1, 2, 1⟩, ⟨2, 3, 0⟩]⟩

/-- `gE2E` after adding an outgoing edge from the output node `D`. -/
def gE2ELoop : Graph := ⟨gE2E.nodes, gE2E.edges ++ [⟨3, 0, 0⟩]⟩

/-- Two mutually connected nodes: a 2-cycle. -/
def gCyc : Graph := ⟨[Node.Add, Node.Add], [⟨0, 1, 0⟩, ⟨1, 0, 0⟩]⟩

/-- C2 fixture: incoming edges of weight 2, 0, 1 from sources `C = 2`,
`A = 0`, `B = 1` into the consumer at handle 3, inserted in that order. -/
def gArg : Graph :=
  ⟨[Node.Input 0 TypeName.Bool, Node.Input 1 TypeName.Bool,
    Node.Input 2 TypeName.Bool, Node.Add],
   [⟨2, 3, 2⟩, ⟨0, 3, 0⟩, ⟨1, 3, 1⟩]⟩

/-- Tie fixture: two edges of equal weight into handle 2, `0→2` inserted
first. -/
def gTie : Graph :=
  ⟨[Node.Input 0 TypeName.Bool, Node.Input 1 TypeName.Bool, Node.Add],
   [⟨0, 2, 5⟩, ⟨1, 2, 5⟩]⟩

/-- `gTie` with the two edges inserted in the opposite order. -/
def gTieSwap : Graph := ⟨gTie.nodes, [⟨1, 2, 5⟩, ⟨0, 2, 5⟩]⟩

/-- Distinct-weight variant of `gTie`. -/
def gDist : Graph := ⟨gTie.nodes, [⟨0, 2, 1⟩, ⟨1, 2, 0⟩]⟩

/-- `gDist` with the two edges inserted in the opposite order. -/
def gDistSwap : Graph := ⟨gTie.nodes, [⟨1, 2, 0⟩, ⟨0, 2, 1⟩]⟩

/-- A single-node graph with no edges. -/
def gOne : Graph := ⟨[Node.Add], []⟩

/-- `gOne` with a self loop of weight 7. -/
def gLoopOne : Graph := ⟨[Node.Add], [⟨0, 0, 7⟩]⟩

/-- `gOne` after `add_node Sin`, `add_node Cos` and `add_edge 0 1 0`. -/
def gW4 : Graph := ⟨[Node.Add, Node.Sin, Node.Cos], [⟨0, 1, 0⟩]⟩

/-- `gOne` after `add_node Sin` and `add_edge 0 1 2`. -/
def gW6 : Graph := ⟨[Node.Add, Node.Sin], [⟨0, 1, 2⟩]⟩

/-! ### Reachability: the executable check agrees with the path relation -/

namespace Graph

theorem mem_succs {g : Graph} {u v : Nat} : v ∈ g.succs u ↔ g.HasEdge u v := by
  simp only [succs, List.mem_toFinset, List.mem_map, List.mem_filter, beq_iff_eq, HasEdge]
  constructor
  · rintro ⟨e, ⟨he, hsrc⟩, htgt⟩
    obtain ⟨s, t, w⟩ := e
    cases hsrc
    cases htgt
    exact ⟨w, he⟩
  · rintro ⟨w, hw⟩
    exact ⟨⟨u, v, w⟩, ⟨hw, rfl⟩, rfl⟩

theorem mem_step_set {g : Graph} {S : Finset Nat} {x : Nat} :
    x ∈ g.step_set S ↔ x ∈ S ∨ ∃ u ∈ S, g.HasEdge u x := by
  simp only [step_set, Finset.mem_union, Finset.mem_biUnion, mem_succs]

theorem subset_step_set (g : Graph) (S : Finset Nat) : S ⊆ g.step_set S :=
  fun _ hx => mem_step_set.mpr (Or.inl hx)

theorem ReachN.pos {g : Graph} {u v k : Nat} (h : g.ReachN u v k) : 1 ≤ k := by
  cases h with
  | single _ => exact Nat.le_refl 1
  | cons _ _ => exact Nat.succ_le_succ (Nat.zero_le _)

theorem ReachN.head {g : Graph} {u v k : Nat} (h : g.ReachN u v k) :
    ∃ x, g.HasEdge u x := by
  cases h with
  | single h' => exact ⟨_, h'⟩
  | cons h' _ => exact ⟨_, h'⟩

theorem ReachN.one_iff {g : Graph} {u v : Nat} : g.ReachN u v 1 ↔ g.HasEdge u v := by
  constructor
  · intro h
    cases h with
    | single h' => exact h'
    | cons h' rest => exact absurd rest.pos (by omega)
  · exact .single

theorem ReachN.snoc {g : Graph} {u v x k : Nat} (h : g.ReachN u v k)
    (he : g.HasEdge v x) : g.ReachN u x (k + 1) := by
  induction h with
  | single h' => exact .cons h' (.single he)
  | cons h' _ ih => exact .cons h' (ih he)

theorem ReachN.last {g : Graph} {u v k : Nat} (h : g.ReachN u v k) :
    (k = 1 ∧ g.HasEdge u v) ∨ ∃ x k', k = k' + 1 ∧ g.ReachN u x k' ∧ g.HasEdge x v := by
  induction h with
  | single h' => exact .inl ⟨rfl, h'⟩
  | @cons u' w' v' k' h' _ ih =>
    rcases ih with ⟨hk, he⟩ | ⟨x, k'', rfl, hr, he⟩
    · subst hk
      exact .inr ⟨w', 1, rfl, .single h', he⟩
    · exact .inr ⟨x, k'' + 1, rfl, .cons h' hr, he⟩

theorem mem_iterate_step_iff {g : Graph} {v : Nat} (k : Nat) (w : Nat) :
    w ∈ (g.step_set)^[k] (g.succs v) ↔ ∃ m, 1 ≤ m ∧ m ≤ k + 1 ∧ g.ReachN v w m := by
  induction k generalizing w with
  | zero =>
    simp only [Function.iterate_zero, id_eq, mem_succs]
    constructor
    · intro h
      exact ⟨1, Nat.le_refl 1, Nat.le_refl 1, .single h⟩
    · rintro ⟨m, h1, h2, hr⟩
      have hm : m = 1 := Nat.le_antisymm h2 h1
      subst hm
      exact ReachN.one_iff.mp hr
  | succ k ih =>
    rw [Function.iterate_succ_apply', mem_step_set]
    constructor
    · rintro (h | ⟨u, hu, he⟩)
      · obtain ⟨m, h1, h2, hr⟩ := (ih w).mp h
        exact ⟨m, h1, by omega, hr⟩
      · obtain ⟨m, h1, h2, hr⟩ := (ih u).mp hu
        exact ⟨m + 1, by omega, by omega, hr.snoc he⟩
    · rintro ⟨m, h1, h2, hr⟩
      by_cases hm : m ≤ k + 1
      · exact Or.inl ((ih w).mpr ⟨m, h1, hm, hr⟩)
      · have hm2 : m = k + 2 := by omega
        subst hm2
        rcases hr.last with ⟨h1', _⟩ | ⟨x, k', hk, hr', he⟩
        · omega
        · have hk' : k' = k + 1 := by omega
          subst hk'
          exact Or.inr ⟨x, (ih x).mpr ⟨k + 1, hr'.pos, Nat.le_refl _, hr'⟩, he⟩

theorem iterate_step_le_succ (g : Graph) (X : Finset Nat) (i : Nat) :
    (g.step_set)^[i] X ⊆ (g.step_set)^[i + 1] X := by
  rw [Function.iterate_succ_apply']
  exact g.subset_step_set _

theorem iterate_step_mono {g : Graph} {X : Finset Nat} {i j : Nat} (h : i ≤ j) :
    (g.step_set)^[i] X ⊆ (g.step_set)^[j] X := by
  induction j with
  | zero =>
    have hi : i = 0 := Nat.le_zero.mp h
    subst hi
    exact Finset.Subset.refl _
  | succ j ih =>
    rcases Nat.eq_or_lt_of_le h with h' | h'
    · subst h'
      exact Finset.Subset.refl _
    · exact (ih (by omega)).trans (g.iterate_step_le_succ X j)

theorem succs_subset_range {g : Graph} (hwf : g.WF) (u : Nat) :
    g.succs u ⊆ Finset.range g.nodes.length := by
  intro x hx
  obtain ⟨w, hw⟩ := mem_succs.mp hx
  exact Finset.mem_range.mpr (hwf _ hw).2

theorem step_set_subset_range {g : Graph} (hwf : g.WF) {S : Finset Nat}
    (hS : S ⊆ Finset.range g.nodes.length) :
    g.step_set S ⊆ Finset.range g.nodes.length := by
  intro x hx
  rcases mem_step_set.mp hx with h | ⟨u, _, he⟩
  · exact hS h
  · obtain ⟨w, hw⟩ := he
    exact Finset.mem_range.mpr (hwf _ hw).2

theorem iterate_step_subset_range {g : Graph} (hwf : g.WF) {X : Finset Nat}
    (hX : X ⊆ Finset.range g.nodes.length) (k : Nat) :
    (g.step_set)^[k] X ⊆ Finset.range g.nodes.length := by
  induction k with
  | zero => simpa using hX
  | succ k ih =>
    rw [Function.iterate_succ_apply']
    exact step_set_subset_range hwf ih

theorem iterate_step_stab {g : Graph} {X : Finset Nat} {k : Nat}
    (h : (g.step_set)^[k] X = (g.step_set)^[k + 1] X) :
    ∀ j, k ≤ j → (g.step_set)^[j] X = (g.step_set)^[k] X := by
  intro j
  induction j with
  | zero =>
    intro hj
    have hk : k = 0 := Nat.le_zero.mp hj
    subst hk
    rfl
  | succ j ih =>
    intro hj
    rcases Nat.eq_or_lt_of_le hj with h' | h'
    · subst h'
      rfl
    · have hkj : k ≤ j := by omega
      rw [Function.iterate_succ_apply', ih hkj,
        ← Function.iterate_succ_apply' g.step_set k X]
      exact h.symm

theorem exists_stab {g : Graph} (hwf : g.WF) (v : Nat) :
    ∃ k ≤ g.nodes.length,
      (g.step_set)^[k] (g.succs v) = (g.step_set)^[k + 1] (g.succs v) := by
  by_contra hcon
  push_neg at hcon
  have hcard : ∀ k, k ≤ g.nodes.length + 1 →
      k ≤ ((g.step_set)^[k] (g.succs v)).card := by
    intro k
    induction k with
    | zero => intro _; exact Nat.zero_le _
    | succ k ih =>
      intro hk
      have h1 := ih (by omega)
      have hne := hcon k (by omega)
      have hss : (g.step_set)^[k] (g.succs v) ⊂ (g.step_set)^[k + 1] (g.succs v) :=
        Finset.ssubset_iff_subset_ne.mpr ⟨g.iterate_step_le_succ _ k, hne⟩
      have := Finset.card_lt_card hss
      omega
  have h1 := hcard (g.nodes.length + 1) (Nat.le_refl _)
  have h2 := Finset.card_le_card
    (iterate_step_subset_range hwf (succs_subset_range hwf v) (g.nodes.length + 1))
  rw [Finset.card_range] at h2
  omega

theorem mem_reach_set_iff {g : Graph} (hwf : g.WF) {v w : Nat} :
    w ∈ g.reach_set v ↔ ∃ m, g.ReachN v w m := by
  constructor
  · intro h
    obtain ⟨m, _, _, hr⟩ := (mem_iterate_step_iff _ _).mp h
    exact ⟨m, hr⟩
  · rintro ⟨m, hr⟩
    have h1 : 1 ≤ m := hr.pos
    have hw : w ∈ (g.step_set)^[m - 1] (g.succs v) :=
      (mem_iterate_step_iff _ _).mpr ⟨m, h1, by omega, hr⟩
    obtain ⟨k, hk, hstab⟩ := exists_stab hwf v
    rcases Nat.le_total (m - 1) g.nodes.length with hle | hge
    · exact iterate_step_mono hle hw
    · show w ∈ (g.step_set)^[g.nodes.length] (g.succs v)
      rw [iterate_step_stab hstab _ hk, ← iterate_step_stab hstab (m - 1) (by omega)]
      exact hw

theorem has_cycle_iff {g : Graph} (hwf : g.WF) :
    g.has_cycle = true ↔ g.HasDirectedCycle := by
  unfold has_cycle HasDirectedCycle
  rw [List.any_eq_true]
  constructor
  · rintro ⟨v, _, hmem⟩
    rw [decide_eq_true_eq] at hmem
    obtain ⟨m, hr⟩ := (mem_reach_set_iff hwf).mp hmem
    exact ⟨v, m, hr⟩
  · rintro ⟨v, k, hr⟩
    refine ⟨v, List.mem_range.mpr ?_, decide_eq_true ((mem_reach_set_iff hwf).mpr ⟨k, hr⟩)⟩
    obtain ⟨x, w, hw⟩ := hr.head
    exact (hwf _ hw).1

theorem has_cycle_eq_false_of_edges_nil {g : Graph} (h : g.edges = []) :
    g.has_cycle = false := by
  have hstep : g.step_set ∅ = ∅ := by
    simp [step_set]
  have hsuccs : ∀ u, g.succs u = ∅ := by
    intro u
    simp [succs, h]
  unfold has_cycle
  rw [List.any_eq_false]
  intro v _
  have : g.reach_set v = ∅ := by
    unfold reach_set
    rw [hsuccs v]
    exact Function.iterate_fixed hstep _
  simp [this]

end Graph

/-! ### Builder operations never disturb previously issued handles -/

theorem applyOp_preserves {g g' : Graph} {op : Op} (h : applyOp g op = some g') :
    g.nodes.length ≤ g'.nodes.length ∧
      ∀ v, v < g.nodes.length → g'.index v = g.index v := by
  cases op with
  | addNode n =>
    simp only [applyOp] at h
    cases h
    refine ⟨?_, fun v hv => ?_⟩
    · simp [Graph.add_node]
    · simp only [Graph.index, Graph.add_node]
      rw [List.getElem?_append, if_pos hv]
  | addEdge a b w =>
    simp only [applyOp, Graph.add_edge] at h
    split at h
    · cases h
      exact ⟨Nat.le_refl _, fun v _ => rfl⟩
    · cases h

theorem applyOps_preserves {ops : List Op} :
    ∀ {g g' : Graph}, applyOps g ops = some g' →
      g.nodes.length ≤ g'.nodes.length ∧
        ∀ v, v < g.nodes.length → g'.index v = g.index v := by
  induction ops with
  | nil =>
    intro g g' h
    simp only [applyOps] at h
    cases h
    exact ⟨Nat.le_refl _, fun _ _ => rfl⟩
  | cons op ops ih =>
    intro g g' h
    simp only [applyOps] at h
    cases hop : applyOp g op with
    | none => rw [hop] at h; cases h
    | some g₁ =>
      rw [hop] at h
      obtain ⟨le₁, pres₁⟩ := applyOp_preserves hop
      obtain ⟨le₂, pres₂⟩ := ih h
      exact ⟨le₁.trans le₂, fun v hv =>
        (pres₂ v (Nat.lt_of_lt_of_le hv le₁)).trans (pres₁ v hv)⟩

theorem applyOps_edges_of_addNode {ops : List Op} (hops : ∀ o ∈ ops, o.isAddNode = true) :
    ∀ {g g' : Graph}, applyOps g ops = some g' → g'.edges = g.edges := by
  induction ops with
  | nil =>
    intro g g' h
    simp only [applyOps] at h
    cases h
    rfl
  | cons op ops ih =>
    intro g g' h
    have hop := hops op (List.mem_cons_self op ops)
    cases op with
    | addEdge a b w => simp [Op.isAddNode] at hop
    | addNode n =>
      simp only [applyOps, applyOp] at h
      have := ih (fun o ho => hops o (List.mem_cons_of_mem _ ho)) h
      rw [this]
      rfl

/-! ### The sorted incoming-edge list -/

namespace Graph

theorem sorted_incoming_perm (g : Graph) (v : Nat) :
    (g.sorted_incoming v).Perm (g.edges.filter fun e => e.target == v) :=
  (List.perm_insertionSort edgeLE _).trans (List.reverse_perm _)

theorem sorted_incoming_sorted (g : Graph) (v : Nat) :
    (g.sorted_incoming v).Sorted edgeLE :=
  List.sorted_insertionSort edgeLE _

theorem arguments_perm (g : Graph) (v : Nat) :
    (g.arguments v).Perm ((g.edges.filter fun e => e.target == v).map Edge.source) :=
  (sorted_incoming_perm g v).map Edge.source

/-! ### Characterisation of `outputs` -/

theorem is_output_node_iff {g : Graph} {v : Nat} :
    g.is_output_node v = true ↔ ∃ b t, g.index v = some (Node.Output b t) := by
  unfold is_output_node index
  cases h : g.nodes[v]? with
  | none => simp [h]
  | some nd => cases nd <;> simp [h]

theorem has_outgoing_eq_false_iff {g : Graph} {v : Nat} :
    g.has_outgoing v = false ↔ ∀ e ∈ g.edges, e.source ≠ v := by
  unfold has_outgoing
  simp

theorem index_isSome_iff {g : Graph} {v : Nat} :
    (g.index v).isSome = true ↔ v < g.nodes.length := by
  unfold index
  cases h : g.nodes[v]? with
  | none =>
    simp only [Option.isSome_none, Bool.false_eq_true, false_iff]
    intro hv
    rw [List.getElem?_eq_getElem hv] at h
    cases h
  | some nd =>
    simp only [Option.isSome_some, true_iff]
    by_contra hv
    rw [List.getElem?_eq_none (Nat.le_of_not_lt hv)] at h
    cases h

theorem mem_outputs_iff {g : Graph} {v : Nat} :
    v ∈ g.outputs ↔
      (∃ b t, g.index v = some (Node.Output b t)) ∧ ∀ e ∈ g.edges, e.source ≠ v := by
  unfold outputs
  rw [List.mem_filter, List.mem_range]
  constructor
  · rintro ⟨_, hcond⟩
    rw [Bool.and_eq_true, Bool.not_eq_true'] at hcond
    exact ⟨is_output_node_iff.mp hcond.2, has_outgoing_eq_false_iff.mp hcond.1⟩
  · rintro ⟨hout, hnoe⟩
    have hv : v < g.nodes.length := by
      obtain ⟨b, t, hbt⟩ := hout
      have : (g.index v).isSome = true := by rw [hbt]; rfl
      exact index_isSome_iff.mp this
    refine ⟨hv, ?_⟩
    rw [Bool.and_eq_true, Bool.not_eq_true']
    exact ⟨has_outgoing_eq_false_iff.mpr hnoe, is_output_node_iff.mpr hout⟩

/-! ### Fresh handles -/

theorem add_node_index_self (g : Graph) (node : Node) :
    (g.add_node node).1.index (g.add_node node).2 = some node := by
  unfold index add_node
  exact List.getElem?_concat_length g.nodes node

theorem add_node_index_lt (g : Graph) (node : Node) {v : Nat}
    (hv : v < g.nodes.length) : (g.add_node node).1.index v = g.index v := by
  unfold index add_node
  rw [List.getElem?_append, if_pos hv]

end Graph

/-! ### Queries are invariant under permutation of the edge arena -/

theorem toFinset_perm {α : Type} [DecidableEq α] {l l' : List α} (h : l.Perm l') :
    l.toFinset = l'.toFinset := by
  ext a
  simp [List.mem_toFinset, h.mem_iff]

theorem succs_congr {g₁ g₂ : Graph} (he : g₁.edges.Perm g₂.edges) :
    g₁.succs = g₂.succs := by
  funext u
  unfold Graph.succs
  exact toFinset_perm ((he.filter _).map _)

theorem reach_set_congr {g₁ g₂ : Graph} (hn : g₁.nodes.length = g₂.nodes.length)
    (he : g₁.edges.Perm g₂.edges) : g₁.reach_set = g₂.reach_set := by
  have hs := succs_congr he
  have hstep : g₁.step_set = g₂.step_set := by
    funext S
    unfold Graph.step_set
    rw [hs]
  funext v
  unfold Graph.reach_set
  rw [hs, hstep, hn]

theorem has_cycle_congr {g₁ g₂ : Graph} (hn : g₁.nodes.length = g₂.nodes.length)
    (he : g₁.edges.Perm g₂.edges) : g₁.has_cycle = g₂.has_cycle := by
  unfold Graph.has_cycle
  rw [reach_set_congr hn he, hn]

theorem any_congr_perm {α : Type} {l l' : List α} (h : l.Perm l') (p : α → Bool) :
    l.any p = l'.any p := by
  cases hb : l'.any p with
  | false =>
    rw [List.any_eq_false] at hb ⊢
    intro x hx
    exact hb x (h.mem_iff.mp hx)
  | true =>
    rw [List.any_eq_true] at hb ⊢
    obtain ⟨x, hx, hpx⟩ := hb
    exact ⟨x, h.mem_iff.mpr hx, hpx⟩

theorem outputs_congr {g₁ g₂ : Graph} (hn : g₁.nodes = g₂.nodes)
    (he : g₁.edges.Perm g₂.edges) : g₁.outputs = g₂.outputs := by
  unfold Graph.outputs
  rw [hn]
  apply List.filter_congr
  intro v _
  unfold Graph.has_outgoing Graph.is_output_node
  rw [hn, any_congr_perm he]

theorem sorted_incoming_strict {g : Graph} {v : Nat}
    (hw : ((g.edges.filter fun e => e.target == v).map Edge.weight).Nodup) :
    (g.sorted_incoming v).Pairwise edgeLT := by
  have hperm : ((g.sorted_incoming v).map Edge.weight).Perm
      ((g.edges.filter fun e => e.target == v).map Edge.weight) :=
    (Graph.sorted_incoming_perm g v).map _
  have hnodup : ((g.sorted_incoming v).map Edge.weight).Nodup :=
    hperm.nodup_iff.mpr hw
  have hne : (g.sorted_incoming v).Pairwise fun e f => e.weight ≠ f.weight := by
    rw [List.Nodup, List.pairwise_map] at hnodup
    exact hnodup
  have hle : (g.sorted_incoming v).Pairwise edgeLE :=
    Graph.sorted_incoming_sorted g v
  exact (hle.and hne).imp fun h => Nat.lt_of_le_of_ne h.1 h.2

theorem arguments_congr {g₁ g₂ : Graph} (he : g₁.edges.Perm g₂.edges) (v : Nat)
    (hw : ((g₁.edges.filter fun e => e.target == v).map Edge.weight).Nodup) :
    g₁.arguments v = g₂.arguments v := by
  have hperm : (g₁.sorted_incoming v).Perm (g₂.sorted_incoming v) :=
    (Graph.sorted_incoming_perm g₁ v).trans
      ((he.filter _).trans (Graph.sorted_incoming_perm g₂ v).symm)
  have hw₂ : ((g₂.edges.filter fun e => e.target == v).map Edge.weight).Nodup :=
    (((he.filter _).map Edge.weight).nodup_iff).mp hw
  have heq : g₁.sorted_incoming v = g₂.sorted_incoming v :=
    List.eq_of_perm_of_sorted hperm (sorted_incoming_strict hw) (sorted_incoming_strict hw₂)
  unfold Graph.arguments
  rw [heq]

/-! ### Stability of the weight sort -/

theorem sorted_incoming_of_const_weight {g : Graph} {v w₀ : Nat}
    (hw : ∀ e ∈ g.edges, e.target = v → e.weight = w₀) :
    g.sorted_incoming v = g.incoming_edges v := by
  apply List.Sorted.insertionSort_eq
  apply List.pairwise_of_forall_mem_list
  intro e he f hf
  have he' : e ∈ g.edges ∧ (e.target == v) = true :=
    List.mem_filter.mp (List.mem_reverse.mp he)
  have hf' : f ∈ g.edges ∧ (f.target == v) = true :=
    List.mem_filter.mp (List.mem_reverse.mp hf)
  show e.weight ≤ f.weight
  rw [hw e he'.1 (by simpa using he'.2), hw f hf'.1 (by simpa using hf'.2)]

theorem sorted_incoming_tie_pair {g : Graph} {v : Nat} {e₁ e₂ : Edge}
    (hsub : [e₁, e₂].Sublist (g.edges.filter fun e => e.target == v))
    (hw : e₂.weight ≤ e₁.weight) :
    [e₂, e₁].Sublist (g.sorted_incoming v) := by
  have h1 : [e₂, e₁].Sublist (g.incoming_edges v) := by
    unfold Graph.incoming_edges
    simpa using hsub.reverse
  exact List.pair_sublist_insertionSort hw h1

/-! ### The claims -/

/-- C1: for every graph, `has_cycle` returns true if and only if the directed
edge relation contains a nonempty directed cycle; and every graph built from
the empty graph by `add_node` calls alone (no `add_edge` at all) has
`has_cycle = false`. -/
theorem has_cycle_correct (g : Graph) (hwf : g.WF) (ops : List Op) (g₀ : Graph)
    (hops : ∀ o ∈ ops, o.isAddNode = true)
    (happ : applyOps Graph.default ops = some g₀) :
    (g.has_cycle = true ↔ g.HasDirectedCycle) ∧ g₀.has_cycle = false :=
  ⟨Graph.has_cycle_iff hwf,
   Graph.has_cycle_eq_false_of_edges_nil (applyOps_edges_of_addNode hops happ)⟩

theorem has_cycle_correct_witness :
    gCyc.WF ∧
      ((gCyc.has_cycle = true ↔ gCyc.HasDirectedCycle) ∧ gOne.has_cycle = false) :=
  ⟨by decide,
   has_cycle_correct gCyc (by decide) [Op.addNode Node.Add] gOne (by decide) (by decide)⟩

/-- C2: for every graph and node handle `v`, `arguments v` consists of
exactly the sources of the edges whose destination is `v` (as a
permutation), taken from the weight-sorted incoming-edge list, in that
order; on the fixture with incoming weights 2, 0, 1 from sources C = 2,
A = 0, B = 1 it returns `[A, B, C]`. -/
theorem arguments_correct (g : Graph) (v : Nat) :
    (g.arguments v).Perm ((g.edges.filter fun e => e.target == v).map Edge.source) ∧
    (g.sorted_incoming v).Sorted edgeLE ∧
    g.arguments v = (g.sorted_incoming v).map Edge.source ∧
    gArg.arguments 3 = [0, 1, 2] :=
  ⟨Graph.arguments_perm g v, Graph.sorted_incoming_sorted g v, rfl, by decide⟩

/-- C3: `outputs` yields exactly the handles whose stored node has variant
`Output` and which have no outgoing edge; and after adding any outgoing
edge from a node, that node is no longer yielded. -/
theorem outputs_correct (g : Graph) (v : Nat) :
    (v ∈ g.outputs ↔
      (∃ b t, g.index v = some (Node.Output b t)) ∧ ∀ e ∈ g.edges, e.source ≠ v) ∧
    (∀ a w g', g.add_edge v a w = some g' → v ∉ g'.outputs) := by
  refine ⟨Graph.mem_outputs_iff, ?_⟩
  intro a w g' hadd hmem
  unfold Graph.add_edge at hadd
  split at hadd
  · cases hadd
    exact (Graph.mem_outputs_iff.mp hmem).2 ⟨v, a, w⟩ (by simp) rfl
  · cases hadd

theorem outputs_correct_witness :
    gE2E.add_edge 3 0 0 = some gE2ELoop ∧ 3 ∉ gE2ELoop.outputs :=
  ⟨by decide, (outputs_correct gE2E 3).2 0 0 gE2ELoop (by decide)⟩

/-- C4: for every live handle, indexing returns the node value that the
producing `add_node` call stored, no matter which `add_node`/`add_edge`
calls are performed afterwards. -/
theorem index_add_node_stable (g : Graph) (node : Node) (ops : List Op) (g' : Graph)
    (happ : applyOps (g.add_node node).1 ops = some g') :
    g'.index (g.add_node node).2 = some node := by
  obtain ⟨_, pres⟩ := applyOps_preserves happ
  have hlt : (g.add_node node).2 < (g.add_node node).1.nodes.length := by
    simp [Graph.add_node]
  rw [pres _ hlt]
  exact Graph.add_node_index_self g node

theorem index_add_node_stable_witness :
    applyOps (gOne.add_node Node.Sin).1 [Op.addNode Node.Cos, Op.addEdge 0 1 0] =
        some gW4 ∧
      gW4.index (gOne.add_node Node.Sin).2 = some Node.Sin :=
  ⟨by decide,
   index_add_node_stable gOne Node.Sin [Op.addNode Node.Cos, Op.addEdge 0 1 0] gW4
     (by decide)⟩

/-- C5: serialization is lossless: for every well-formed graph,
`deserialize (serialize g)` reproduces `g` exactly (same nodes at the same
handles, same edges with the same endpoints and weights). -/
theorem serialize_deserialize_id (g : Graph) (hwf : g.WF) :
    deserialize g.serialize = some g := by
  obtain ⟨ns, es⟩ := g
  have hall : es.all
      (fun e => decide (e.source < ns.length) && decide (e.target < ns.length)) = true := by
    rw [List.all_eq_true]
    intro e he
    have h := hwf e he
    simp only [Bool.and_eq_true, decide_eq_true_eq]
    exact h
  unfold deserialize Graph.serialize
  rw [if_pos hall]

theorem serialize_deserialize_id_witness :
    gE2E.WF ∧ deserialize gE2E.serialize = some gE2E :=
  ⟨by decide, serialize_deserialize_id gE2E (by decide)⟩

/-- C6: `add_node` never fails, returns the handle `nodes.length`, which is
distinct from every previously issued handle; previously issued handles
keep referring to the same nodes across the `add_node` call and across any
later builder operations, and the new handle refers to the inserted node. -/
theorem add_node_fresh (g : Graph) (node : Node) (h' : Nat)
    (hh : h' < g.nodes.length) (ops : List Op) (g' : Graph)
    (happ : applyOps (g.add_node node).1 ops = some g') :
    (g.add_node node).2 = g.nodes.length ∧
    h' ≠ (g.add_node node).2 ∧
    (g.add_node node).1.index h' = g.index h' ∧
    g'.index h' = g.index h' ∧
    (g'.index h').isSome = true ∧
    g'.index (g.add_node node).2 = some node := by
  obtain ⟨_, pres⟩ := applyOps_preserves happ
  have h1 := Graph.add_node_index_lt g node hh
  have hh1 : h' < (g.add_node node).1.nodes.length := by
    simp [Graph.add_node]
    omega
  have h2 : g'.index h' = g.index h' := (pres h' hh1).trans h1
  refine ⟨rfl, Nat.ne_of_lt hh, h1, h2, ?_, ?_⟩
  · rw [h2]
    exact Graph.index_isSome_iff.mpr hh
  · have hlt : (g.add_node node).2 < (g.add_node node).1.nodes.length := by
      simp [Graph.add_node]
    rw [pres _ hlt]
    exact Graph.add_node_index_self g node

theorem add_node_fresh_witness :
    0 < gOne.nodes.length ∧
    applyOps (gOne.add_node Node.Sin).1 [Op.addEdge 0 1 2] = some gW6 ∧
    ((gOne.add_node Node.Sin).2 = gOne.nodes.length ∧
      0 ≠ (gOne.add_node Node.Sin).2 ∧
      (gOne.add_node Node.Sin).1.index 0 = gOne.index 0 ∧
      gW6.index 0 = gOne.index 0 ∧
      (gW6.index 0).isSome = true ∧
      gW6.index (gOne.add_node Node.Sin).2 = some Node.Sin) :=
  ⟨by decide, by decide,
   add_node_fresh gOne Node.Sin 0 (by decide) [Op.addEdge 0 1 2] gW6 (by decide)⟩

/-- C7 counterexample: two graphs with the same node values and the same
multiset of weighted edges, built in different edge-insertion orders, on
which `arguments` disagrees (the shared weight leaves the order to the
stable sort, which preserves petgraph's reverse-insertion iteration
order). -/
theorem insertion_order_counterexample :
    gTie.nodes = gTieSwap.nodes ∧ gTie.edges.Perm gTieSwap.edges ∧
      gTie.arguments 2 ≠ gTieSwap.arguments 2 :=
  ⟨rfl, by decide, by decide⟩

/-- C7 (amended): for two graphs with the same node arena and permuted edge
arenas, `has_cycle` and `outputs` agree, and `arguments v` agrees whenever
the weights of the edges into `v` are pairwise distinct (with duplicate
weights the order additionally depends on the insertion order). -/
theorem queries_edge_insertion_invariant (g₁ g₂ : Graph) (hn : g₁.nodes = g₂.nodes)
    (he : g₁.edges.Perm g₂.edges) (v : Nat)
    (hw : ((g₁.edges.filter fun e => e.target == v).map Edge.weight).Nodup) :
    g₁.has_cycle = g₂.has_cycle ∧ g₁.outputs = g₂.outputs ∧
      g₁.arguments v = g₂.arguments v :=
  ⟨has_cycle_congr (by rw [hn]) he, outputs_congr hn he, arguments_congr he v hw⟩

theorem queries_edge_insertion_invariant_witness :
    gDist.nodes = gDistSwap.nodes ∧ gDist.edges.Perm gDistSwap.edges ∧
    ((gDist.edges.filter fun e => e.target == 2).map Edge.weight).Nodup ∧
    (gDist.has_cycle = gDistSwap.has_cycle ∧ gDist.outputs = gDistSwap.outputs ∧
      gDist.arguments 2 = gDistSwap.arguments 2) :=
  ⟨rfl, by decide, by decide,
   queries_edge_insertion_invariant gDist gDistSwap rfl (by decide) 2 (by decide)⟩

/-- C8 counterexample: `add_edge` is not infallible: with a single-node
graph, `add_edge 5 5 0` fails (petgraph panics on an out-of-bounds
endpoint index). -/
theorem add_edge_out_of_bounds_fails : gOne.add_edge 5 5 0 = none := by decide

/-- C8 (amended): whenever both endpoint indices are in bounds, `add_edge`
unconditionally appends exactly the requested edge — with no check that the
handles were issued by this graph rather than merely being in range, no
arity check, and no cycle check; when an endpoint index is out of bounds it
fails (the petgraph panic). -/
theorem add_edge_unvalidated (g : Graph) (a b w : Nat) :
    (a < g.nodes.length → b < g.nodes.length →
      g.add_edge a b w = some ⟨g.nodes, g.edges ++ [⟨a, b, w⟩]⟩) ∧
    ((g.nodes.length ≤ a ∨ g.nodes.length ≤ b) → g.add_edge a b w = none) := by
  constructor
  · intro ha hb
    unfold Graph.add_edge
    rw [if_pos ⟨ha, hb⟩]
  · intro hab
    unfold Graph.add_edge
    rw [if_neg]
    rintro ⟨ha, hb⟩
    rcases hab with h | h <;> omega

theorem add_edge_unvalidated_witness :
    gTie.add_edge 2 0 99 = some ⟨gTie.nodes, gTie.edges ++ [⟨2, 0, 99⟩]⟩ ∧
      gTie.add_edge 3 0 0 = none :=
  ⟨(add_edge_unvalidated gTie 2 0 99).1 (by decide) (by decide),
   (add_edge_unvalidated gTie 3 0 0).2 (Or.inl (by decide))⟩

/-- C9 counterexample: on `gTie` the two equal-weight incoming edges were
inserted as `0→2` then `1→2`, yet `arguments` yields `[1, 0]`, not the
insertion order `[0, 1]`. -/
theorem arguments_tie_order_counterexample :
    gTie.arguments 2 = [1, 0] ∧ gTie.arguments 2 ≠ [0, 1] :=
  ⟨by decide, by decide⟩

/-- C9 (amended): the tie-break is deterministic but reversed: among
incoming edges of equal weight, `arguments` yields sources in reverse
edge-insertion order (petgraph's incoming iterator runs newest-first and
the stable sort preserves that); in particular, when all incoming edges of
a node share one weight, `arguments` is exactly the reversed insertion
order of their sources. -/
theorem arguments_tie_reverse_insertion (g : Graph) (v : Nat) :
    (∀ e₁ e₂ : Edge, [e₁, e₂].Sublist (g.edges.filter fun e => e.target == v) →
      e₂.weight ≤ e₁.weight →
      [e₂.source, e₁.source].Sublist (g.arguments v)) ∧
    (∀ w₀, (∀ e ∈ g.edges, e.target = v → e.weight = w₀) →
      g.arguments v =
        ((g.edges.filter fun e => e.target == v).reverse).map Edge.source) := by
  constructor
  · intro e₁ e₂ hsub hw
    exact (sorted_incoming_tie_pair hsub hw).map Edge.source
  · intro w₀ hconst
    unfold Graph.arguments
    rw [sorted_incoming_of_const_weight hconst]
    rfl

theorem arguments_tie_reverse_insertion_witness :
    [(⟨0, 2, 5⟩ : Edge), ⟨1, 2, 5⟩].Sublist (gTie.edges.filter fun e => e.target == 2) ∧
    [(⟨1, 2, 5⟩ : Edge).source, (⟨0, 2, 5⟩ : Edge).source].Sublist (gTie.arguments 2) ∧
    gTie.arguments 2 =
      ((gTie.edges.filter fun e => e.target == 2).reverse).map Edge.source := by
  have hsub : [(⟨0, 2, 5⟩ : Edge), ⟨1, 2, 5⟩].Sublist
      (gTie.edges.filter fun e => e.target == 2) := List.Sublist.refl _
  have hconst : ∀ e ∈ gTie.edges, e.target = 2 → e.weight = 5 := by decide
  exact ⟨hsub,
    (arguments_tie_reverse_insertion gTie 2).1 _ _ hsub (by decide),
    (arguments_tie_reverse_insertion gTie 2).2 5 hconst⟩

/-- C10: self-loops are accepted: for every valid handle `v`, `add_edge v v w`
succeeds for any weight `w`, and the resulting graph has `has_cycle = true`. -/
theorem self_loop_cycle (g : Graph) (v w : Nat) (hv : v < g.nodes.length) :
    g.add_edge v v w = some ⟨g.nodes, g.edges ++ [⟨v, v, w⟩]⟩ ∧
    ∀ g', g.add_edge v v w = some g' → g'.has_cycle = true := by
  have hedge : g.add_edge v v w = some ⟨g.nodes, g.edges ++ [⟨v, v, w⟩]⟩ := by
    unfold Graph.add_edge
    rw [if_pos ⟨hv, hv⟩]
  refine ⟨hedge, ?_⟩
  intro g' hg'
  rw [hedge] at hg'
  cases hg'
  unfold Graph.has_cycle
  rw [List.any_eq_true]
  refine ⟨v, List.mem_range.mpr hv, ?_⟩
  rw [decide_eq_true_eq]
  have hmem : v ∈ Graph.succs ⟨g.nodes, g.edges ++ [⟨v, v, w⟩]⟩ v :=
    Graph.mem_succs.mpr ⟨w, List.mem_append_right _ (List.mem_singleton.mpr rfl)⟩
  exact Graph.iterate_step_mono (Nat.zero_le _) hmem

theorem self_loop_cycle_witness :
    0 < gOne.nodes.length ∧ gOne.add_edge 0 0 7 = some gLoopOne ∧
      gLoopOne.has_cycle = true :=
  ⟨by decide, by decide, (self_loop_cycle gOne 0 7 (by decide)).2 gLoopOne (by decide)⟩

end ShaderGraph
